import Mathlib

/-!
Shallow embedding of the module-resolution and metadata layer of the rhai
scripting engine slice: `src/module/resolvers/stat.rs` (the static module
resolver) and `src/serde_impl/metadata.rs` (function-metadata normalization,
aggregation and its serialized document shape).

Modelling conventions:
- Rust `String` is Lean `String`; character-level operations (`splitn`,
  `trim`) are modelled on `List Char` to mirror the Rust iterator semantics.
- `HashMap<String, Module>` is modelled as an association list with
  replace-on-insert; iteration order of a `HashMap` is unspecified in Rust,
  so only lookup and key-set facts are meaningful.
- `BTreeMap<String, _>` is modelled as an association list kept sorted by
  key via ordered insertion, mirroring its sorted iteration order.
- `Module::clone` is a logical copy (cheap shared duplication), modelled as
  the identity: a clone is behaviorally equivalent to the original.
-/

namespace Rhai

/-- Crate-level namespace tag (`crate::FnNamespace`). -/
inductive RhaiFnNamespace where
  | Global
  | Internal
deriving DecidableEq, Repr

/-- Crate-level access tag (`crate::FnAccess`). -/
inductive RhaiFnAccess where
  | Public
  | Private
deriving DecidableEq, Repr

/-- Serialized namespace tag (`serde_impl::metadata::FnNamespace`). -/
inductive FnNamespace where
  | Global
  | Internal
deriving DecidableEq, Repr

/-- Serialized access tag (`serde_impl::metadata::FnAccess`). -/
inductive FnAccess where
  | Public
  | Private
deriving DecidableEq, Repr

/-- Serialized origin tag (`serde_impl::metadata::FnType`). -/
inductive FnType where
  | Script
  | Native
deriving DecidableEq, Repr

/-- The two-case translation table `From<crate::FnNamespace> for FnNamespace`. -/
def FnNamespace.ofRhai : RhaiFnNamespace → FnNamespace
  | RhaiFnNamespace.Global => FnNamespace.Global
  | RhaiFnNamespace.Internal => FnNamespace.Internal

/-- The two-case translation table `From<crate::FnAccess> for FnAccess`. -/
def FnAccess.ofRhai : RhaiFnAccess → FnAccess
  | RhaiFnAccess.Public => FnAccess.Public
  | RhaiFnAccess.Private => FnAccess.Private

/-- One normalized parameter: `struct FnParam { name, typ }`. -/
structure FnParam where
  name : String
  typ : Option String
deriving DecidableEq, Repr

/-- The canonical normalized record `struct FnMetadata`.  The Rust field
`namespace` is spelled `ns` here because `namespace` is a Lean keyword. -/
structure FnMetadata where
  ns : FnNamespace
  access : FnAccess
  name : String
  typ : FnType
  num_params : Nat
  params : List FnParam
  return_type : Option String
  doc_comments : Option (List String)
deriving DecidableEq, Repr

/-- The callable-function handle carried by a `FuncInfo` (`info.func`):
only `is_script()` and, for script functions, `get_fn_def().comments` are
consumed by this slice. -/
structure CallableFunction where
  is_script : Bool
  comments : List String
deriving DecidableEq, Repr

/-- Raw function descriptor `crate::module::FuncInfo` as consumed here:
namespace and access tags, name, declared arity (`params : usize`), the
optional raw parameter-name list, and the callable handle. -/
structure FuncInfo where
  ns : RhaiFnNamespace
  access : RhaiFnAccess
  name : String
  params : Nat
  param_names : Option (List String)
  func : CallableFunction
deriving DecidableEq, Repr

/-- Raw descriptor of a function defined by a compiled script
(`crate::ScriptFnMetadata`): access, name, parameter names, comments. -/
structure ScriptFnMetadata where
  access : RhaiFnAccess
  name : String
  params : List String
  comments : List String
deriving DecidableEq, Repr

/-- Rust `str::splitn(2, ':')` on a character list: everything up to the
first colon, and, when a colon occurs, the remainder after it (which may
itself contain further colons). -/
def splitn2Colon : List Char → List Char × Option (List Char)
  | [] => ([], none)
  | c :: rest =>
    if c = ':' then ([], some rest)
    else
      let r := splitn2Colon rest
      (c :: r.1, r.2)

/-- Rust `str::trim` on a character list: strip whitespace from both ends. -/
def trimChars (cs : List Char) : List Char :=
  ((cs.dropWhile Char.isWhitespace).reverse.dropWhile Char.isWhitespace).reverse

/-- String-level wrapper of `trimChars`. -/
def trimStr (s : String) : String :=
  String.mk (trimChars s.toList)

/-- The per-entry parameter parser of `From<&FuncInfo> for FnMetadata`:
`splitn(2, ':')`, first fragment trimmed is the name (with the dead fallback
to the underscore placeholder when the split yields no first fragment),
second fragment, when present, trimmed is the type. -/
def fnParamOfRaw (s : String) : FnParam :=
  let seg := splitn2Colon s.toList
  let name := String.mk (trimChars seg.1)
  let typ := seg.2.map (fun cs => String.mk (trimChars cs))
  { name := name, typ := typ }

/-- The module function-table normalization path
(`From<&crate::module::FuncInfo> for FnMetadata`). -/
def FnMetadata.ofFuncInfo (info : FuncInfo) : FnMetadata :=
  { ns := FnNamespace.ofRhai info.ns
    access := FnAccess.ofRhai info.access
    name := info.name
    typ := if info.func.is_script then FnType.Script else FnType.Native
    num_params := info.params
    params :=
      match info.param_names with
      | some names => (names.take info.params).map fnParamOfRaw
      | none => []
    return_type :=
      match info.param_names with
      | some names =>
        match names.getLast? with
        | some s => some s
        | none => some "()"
      | none => none
    doc_comments :=
      if info.func.is_script then some info.func.comments else none }

/-- The compiled-script normalization path
(`From<crate::ScriptFnMetadata> for FnMetadata`). -/
def FnMetadata.ofScriptFn (info : ScriptFnMetadata) : FnMetadata :=
  { ns := FnNamespace.Global
    access := FnAccess.ofRhai info.access
    name := info.name
    typ := FnType.Script
    num_params := info.params.length
    params := info.params.map (fun s => { name := s, typ := some "Dynamic" })
    return_type := some "Dynamic"
    doc_comments :=
      if info.comments.isEmpty then none else some info.comments }

/-- A module (`crate::Module`) as consumed by this slice: named sub-modules
(`iter_sub_modules`) and an ordered function table (`iter_fn`). -/
inductive Module where
  | mk (sub_modules : List (String × Module)) (functions : List FuncInfo)

/-- Sub-module enumeration `Module::iter_sub_modules`. -/
def Module.sub_modules : Module → List (String × Module)
  | Module.mk ms _ => ms

/-- Function enumeration `Module::iter_fn`. -/
def Module.functions : Module → List FuncInfo
  | Module.mk _ fs => fs

/-- The engine state consumed by this slice: installed packages
(`self.packages`, in registration order), globally registered sub-modules
(`self.global_sub_modules`), and the global function namespace
(`self.global_namespace`, itself a module). -/
structure Engine where
  packages : List Module
  global_sub_modules : List (String × Module)
  global_namespace : Module

/-- A compiled script (`crate::AST`) as consumed here: `iter_functions`
yields one `ScriptFnMetadata` per defined function. -/
structure AST where
  functions : List ScriptFnMetadata

/-- A source position (`crate::token::Position`): line and character
offset. -/
structure Position where
  line : Nat
  pos : Nat
deriving DecidableEq, Repr

/-- The error type `crate::result::EvalAltResult`, restricted to the shape
relevant here: `ErrorModuleNotFound(path, pos)` is the variant this slice
constructs; `ErrorOther` is an abstract stand-in for every other variant of
the crate error enum (none of which this slice produces). -/
inductive EvalAltResult where
  | ErrorModuleNotFound (path : String) (pos : Position)
  | ErrorOther (code : Nat) (pos : Position)
deriving DecidableEq, Repr

/-- Lookup in the association-list model of `HashMap<String, Module>`. -/
def hmLookup (entries : List (String × Module)) (path : String) : Option Module :=
  (entries.find? (fun p => p.1 == path)).map (fun p => p.2)

/-- The resolver `StaticModuleResolver`, a tuple struct over `HashMap<String, Module>`;
the hash map is modelled as an association list with unique keys. -/
structure StaticModuleResolver where
  entries : List (String × Module)

/-- Constructor `StaticModuleResolver::new` (`Default::default()`). -/
def StaticModuleResolver.new : StaticModuleResolver := ⟨[]⟩

/-- Operation `StaticModuleResolver::insert`: `HashMap::insert`, storing or replacing
the module at the path.  Replacement is modelled by erasing the old binding
and prepending the new one (hash-map iteration order is unspecified, so only
lookup and key-set facts are meaningful). -/
def StaticModuleResolver.insert (r : StaticModuleResolver) (path : String)
    (module : Module) : StaticModuleResolver :=
  ⟨(path, module) :: r.entries.filter (fun p => p.1 != path)⟩

/-- Operation `StaticModuleResolver::contains_path`. -/
def StaticModuleResolver.contains_path (r : StaticModuleResolver) (path : String) : Bool :=
  (hmLookup r.entries path).isSome

/-- Operation `StaticModuleResolver::is_empty`. -/
def StaticModuleResolver.is_empty (r : StaticModuleResolver) : Bool :=
  r.entries.isEmpty

/-- Operation `StaticModuleResolver::len`. -/
def StaticModuleResolver.len (r : StaticModuleResolver) : Nat :=
  r.entries.length

/-- Operation `StaticModuleResolver::merge`: when `other` is non-empty, extend the map
with every entry of `other` (`HashMap::extend`, replacing on key clash). -/
def StaticModuleResolver.merge (r other : StaticModuleResolver) : StaticModuleResolver :=
  if !other.is_empty then
    other.entries.foldl (fun acc p => acc.insert p.1 p.2) r
  else r

/-- Resolution `ModuleResolver::resolve` for `StaticModuleResolver`: look the path up,
clone the stored module (a logical copy, modelled as identity), or fail with
`ErrorModuleNotFound(path, pos)`.  The engine argument is ignored by the
source. -/
def StaticModuleResolver.resolve (r : StaticModuleResolver) (_e : Engine)
    (path : String) (pos : Position) : Except EvalAltResult Module :=
  match hmLookup r.entries path with
  | some m => Except.ok m
  | none => Except.error (EvalAltResult.ErrorModuleNotFound path pos)

/-- Ordered insertion into the sorted-association-list model of
`BTreeMap<String, _>`: keep keys strictly increasing, replace on an equal
key. -/
def btInsert {α : Type} (k : String) (v : α) : List (String × α) → List (String × α)
  | [] => [(k, v)]
  | (q, w) :: rest =>
    if k < q then (k, v) :: (q, w) :: rest
    else if k = q then (k, v) :: rest
    else (q, w) :: btInsert k v rest

/-- The recursive export node `struct ModuleMetadata`: a `BTreeMap` of
sub-module nodes (modelled as a key-sorted association list) and an ordered
function-metadata list. -/
inductive ModuleMetadata where
  | mk (modules : List (String × ModuleMetadata)) (functions : List FnMetadata)

/-- The `modules` field of a metadata node. -/
def ModuleMetadata.modules : ModuleMetadata → List (String × ModuleMetadata)
  | ModuleMetadata.mk ms _ => ms

/-- The `functions` field of a metadata node. -/
def ModuleMetadata.functions : ModuleMetadata → List FnMetadata
  | ModuleMetadata.mk _ fs => fs

/-- Value `Default::default()` for `ModuleMetadata`: both collections empty. -/
def ModuleMetadata.default : ModuleMetadata := ModuleMetadata.mk [] []

/-- Push step `global.functions.push(info)`. -/
def ModuleMetadata.pushFn : ModuleMetadata → FnMetadata → ModuleMetadata
  | ModuleMetadata.mk ms fs, f => ModuleMetadata.mk ms (fs ++ [f])

/-- Insertion `global.modules.insert(name, node)` (`BTreeMap::insert`). -/
def ModuleMetadata.insertModule : ModuleMetadata → String → ModuleMetadata → ModuleMetadata
  | ModuleMetadata.mk ms fs, k, v => ModuleMetadata.mk (btInsert k v ms) fs

mutual

/-- Conversion `From<&crate::Module> for ModuleMetadata`: sub-modules are converted
recursively and collected into a `BTreeMap`; functions are normalized via
the module function-table path. -/
def ModuleMetadata.ofModule : Module → ModuleMetadata
  | Module.mk subs fns =>
    ModuleMetadata.mk (btCollect subs []) (fns.map FnMetadata.ofFuncInfo)

/-- Collection `collect::<BTreeMap<_, _>>()` over the mapped sub-module iterator:
left-to-right insertion, a later duplicate key replacing an earlier one. -/
def btCollect : List (String × Module) → List (String × ModuleMetadata) →
    List (String × ModuleMetadata)
  | [], acc => acc
  | (n, m) :: rest, acc => btCollect rest (btInsert n (ModuleMetadata.ofModule m) acc)

end

/-- Aggregation `Engine::gen_fn_metadata_to_json` up to (but not including) the final
JSON encoding: build the root node by pushing normalized package functions
(when requested), inserting recursively built global sub-modules, pushing
normalized global-namespace functions, and pushing normalized script
functions when a compiled script is supplied. -/
def Engine.gen_fn_metadata (e : Engine) (ast : Option AST)
    (include_packages : Bool) : ModuleMetadata :=
  let g := ModuleMetadata.default
  let g :=
    if include_packages then
      (e.packages.flatMap (fun m => m.functions.map FnMetadata.ofFuncInfo)).foldl
        ModuleMetadata.pushFn g
    else g
  let g := e.global_sub_modules.foldl
    (fun g p => g.insertModule p.1 (ModuleMetadata.ofModule p.2)) g
  let g := (e.global_namespace.functions.map FnMetadata.ofFuncInfo).foldl
    ModuleMetadata.pushFn g
  match ast with
  | some a => (a.functions.map FnMetadata.ofScriptFn).foldl ModuleMetadata.pushFn g
  | none => g

/-- The JSON value shape of the serialized export document (only the
constructors the document uses). -/
inductive Json where
  | str (s : String)
  | num (n : Nat)
  | arr (xs : List Json)
  | obj (fields : List (String × Json))

/-- Serialized spelling of the namespace tag (`rename_all = camelCase`). -/
def FnNamespace.toJson : FnNamespace → Json
  | FnNamespace.Global => Json.str "global"
  | FnNamespace.Internal => Json.str "internal"

/-- Serialized spelling of the access tag (`rename_all = camelCase`). -/
def FnAccess.toJson : FnAccess → Json
  | FnAccess.Public => Json.str "public"
  | FnAccess.Private => Json.str "private"

/-- Serialized spelling of the origin tag (`rename_all = camelCase`). -/
def FnType.toJson : FnType → Json
  | FnType.Script => Json.str "script"
  | FnType.Native => Json.str "native"

/-- Serde serialization of `FnParam`: field `name`, and field `type`
(renamed) skipped when `None`. -/
def FnParam.toJson (p : FnParam) : Json :=
  Json.obj ([("name", Json.str p.name)] ++
    (match p.typ with
     | some t => [("type", Json.str t)]
     | none => []))

/-- Serde serialization of `FnMetadata`: camelCase field names in
declaration order; `params` skipped when empty, `returnType` and
`docComments` skipped when `None`. -/
def FnMetadata.toJson (f : FnMetadata) : Json :=
  Json.obj
    ([("namespace", f.ns.toJson),
      ("access", f.access.toJson),
      ("name", Json.str f.name),
      ("type", f.typ.toJson),
      ("numParams", Json.num f.num_params)] ++
     (if f.params.isEmpty then []
      else [("params", Json.arr (f.params.map FnParam.toJson))]) ++
     (match f.return_type with
      | some t => [("returnType", Json.str t)]
      | none => []) ++
     (match f.doc_comments with
      | some ds => [("docComments", Json.arr (ds.map Json.str))]
      | none => []))

mutual

/-- Serde serialization of `ModuleMetadata`: `modules` (a `BTreeMap`, so
its keys appear in sorted order) skipped when empty, `functions` skipped
when empty. -/
def ModuleMetadata.toJson : ModuleMetadata → Json
  | ModuleMetadata.mk ms fs =>
    Json.obj
      ((if ms.isEmpty then []
        else [("modules", Json.obj (serializeModuleList ms))]) ++
       (if fs.isEmpty then []
        else [("functions", Json.arr (fs.map FnMetadata.toJson))]))

/-- Entry-wise serialization of a module map, preserving entry order. -/
def serializeModuleList : List (String × ModuleMetadata) → List (String × Json)
  | [] => []
  | (k, v) :: rest => (k, ModuleMetadata.toJson v) :: serializeModuleList rest

end

/-- The serialized document produced by `Engine::gen_fn_metadata_to_json`
(the `serde_json` value; the final pretty-printing to text is the encoding
step outside this model). -/
def Engine.gen_fn_metadata_to_json (e : Engine) (ast : Option AST)
    (include_packages : Bool) : Json :=
  (e.gen_fn_metadata ast include_packages).toJson

/-- Specification-level restatement of the per-entry parameter parsing,
phrased independently of the iterator encoding: split at the first colon
(take/drop), trim both fragments, no placeholder substitution for a name
that is empty after trimming. -/
def fnParamSpec (s : String) : FnParam :=
  let cs := s.toList
  if cs.contains ':' then
    { name := String.mk (trimChars (cs.takeWhile (fun c => c != ':')))
      typ := some (String.mk (trimChars ((cs.dropWhile (fun c => c != ':')).tail))) }
  else
    { name := String.mk (trimChars cs), typ := none }

/-- Strictly increasing key sequence of an association list. -/
def keysSorted {α : Type} (l : List (String × α)) : Prop :=
  (l.map Prod.fst).Pairwise (fun a b => a < b)

/-- The field list of a JSON object (empty for non-objects). -/
def objFields : Json → List (String × Json)
  | Json.obj fs => fs
  | _ => []

/-- Recursive invariant of a metadata tree: every module map has sorted
keys, at every level. -/
inductive GoodMM : ModuleMetadata → Prop where
  | mk (ms : List (String × ModuleMetadata)) (fs : List FnMetadata)
      (hs : keysSorted ms) (hrec : ∀ q ∈ ms, GoodMM q.2) :
      GoodMM (ModuleMetadata.mk ms fs)

/-- Relation `Subnode nd md`: `nd` is one of the module levels of the recursion
rooted at `md` (the root itself, or a node of some sub-module subtree). -/
inductive Subnode : ModuleMetadata → ModuleMetadata → Prop where
  | refl (md : ModuleMetadata) : Subnode md md
  | child (q : String × ModuleMetadata) (md nd : ModuleMetadata)
      (hq : q ∈ md.modules) (h : Subnode nd q.2) : Subnode nd md

/-- A sample empty module. -/
def moduleM1 : Module := Module.mk [] []

/-- A sample module with one native function. -/
def moduleM2 : Module :=
  Module.mk []
    [{ ns := RhaiFnNamespace.Global, access := RhaiFnAccess.Public, name := "f",
       params := 1, param_names := some ["x:Int", "Bool"],
       func := { is_script := false, comments := [] } }]

/-- A sample module with one script function. -/
def moduleM3 : Module :=
  Module.mk []
    [{ ns := RhaiFnNamespace.Internal, access := RhaiFnAccess.Private, name := "g",
       params := 1, param_names := none,
       func := { is_script := true, comments := ["doc"] } }]

/-- A sample registry holding the paths `math` and `str`. -/
def regA : StaticModuleResolver :=
  StaticModuleResolver.new.insert "math" moduleM1 |>.insert "str" moduleM2

/-- A sample registry holding a replacement for the path `math`. -/
def regB : StaticModuleResolver := StaticModuleResolver.new.insert "math" moduleM3

/-- A sample source position. -/
def samplePos : Position := { line := 3, pos := 7 }

/-- A sample engine with empty registration state. -/
def sampleEngine : Engine :=
  { packages := [], global_sub_modules := [], global_namespace := moduleM1 }

/-- A raw descriptor whose parameter-name list holds one empty entry. -/
def c3Info : FuncInfo :=
  { ns := RhaiFnNamespace.Global, access := RhaiFnAccess.Public, name := "e",
    params := 1, param_names := some [""],
    func := { is_script := false, comments := [] } }

/-- A raw descriptor with arity two and a two-entry parameter-name list. -/
def c10Info : FuncInfo :=
  { ns := RhaiFnNamespace.Global, access := RhaiFnAccess.Public, name := "t",
    params := 2, param_names := some ["x:Int", "y"],
    func := { is_script := false, comments := [] } }

theorem find?_filter_ne (l : List (String × Module)) (path q : String)
    (h : q ≠ path) :
    List.find? (fun p => p.1 == q) (l.filter (fun p => p.1 != path)) =
      List.find? (fun p => p.1 == q) l := by
  induction l with
  | nil => rfl
  | cons a rest ih =>
    by_cases ha : a.1 = path
    · have h2 : ¬ ((a.1 == q) = true) := by
        simp [ha]
        exact fun hc => h hc.symm
      have hstep : List.find? (fun p => p.1 == q) (a :: rest) =
          List.find? (fun p => p.1 == q) rest :=
        List.find?_cons_of_neg rest h2
      rw [List.filter_cons_of_neg (by simp [ha]), hstep, ih]
    · have hfil : List.filter (fun p => p.1 != path) (a :: rest) =
          a :: List.filter (fun p => p.1 != path) rest :=
        List.filter_cons_of_pos (by simp [ha])
      by_cases haq : a.1 = q
      · have hp : ((fun p : String × Module => p.1 == q) a) = true := by simp [haq]
        have hstep1 : List.find? (fun p => p.1 == q)
            (a :: List.filter (fun p => p.1 != path) rest) = some a :=
          List.find?_cons_of_pos _ hp
        have hstep2 : List.find? (fun p => p.1 == q) (a :: rest) = some a :=
          List.find?_cons_of_pos rest hp
        rw [hfil, hstep1, hstep2]
      · have hp : ¬ (((fun p : String × Module => p.1 == q) a) = true) := by simp [haq]
        have hstep1 : List.find? (fun p => p.1 == q)
            (a :: List.filter (fun p => p.1 != path) rest) =
            List.find? (fun p => p.1 == q) (List.filter (fun p => p.1 != path) rest) :=
          List.find?_cons_of_neg _ hp
        have hstep2 : List.find? (fun p => p.1 == q) (a :: rest) =
            List.find? (fun p => p.1 == q) rest :=
          List.find?_cons_of_neg rest hp
        rw [hfil, hstep1, hstep2, ih]

theorem hmLookup_insert (r : StaticModuleResolver) (path q : String) (m : Module) :
    hmLookup (r.insert path m).entries q =
      (if q = path then some m else hmLookup r.entries q) := by
  unfold StaticModuleResolver.insert hmLookup
  dsimp only
  by_cases h : q = path
  · subst h
    rw [List.find?_cons_of_pos _ (by simp), if_pos rfl]
    rfl
  · rw [List.find?_cons_of_neg _ (by simp; exact fun hc => h hc.symm),
      find?_filter_ne _ _ _ h, if_neg h]

/-- C1: after `insert(p, m)`, `resolve` at `p` with any position succeeds
and returns a logical copy of `m`, whatever was stored at `p` before. -/
theorem c1_insert_then_resolve (r : StaticModuleResolver) (e : Engine)
    (p : String) (m : Module) (pos : Position) :
    (r.insert p m).resolve e p pos = Except.ok m := by
  unfold StaticModuleResolver.resolve
  rw [hmLookup_insert, if_pos rfl]

/-- C2: when the path is absent, `resolve` fails with exactly the
module-not-found error carrying the path and the supplied position; and
every failure `resolve` produces is of that exact shape. -/
theorem c2_resolve_not_found (r : StaticModuleResolver) (e : Engine)
    (p : String) (pos : Position) :
    (r.contains_path p = false →
      r.resolve e p pos =
        Except.error (EvalAltResult.ErrorModuleNotFound p pos)) ∧
    (∀ err, r.resolve e p pos = Except.error err →
      err = EvalAltResult.ErrorModuleNotFound p pos) := by
  unfold StaticModuleResolver.resolve StaticModuleResolver.contains_path
  constructor
  · intro h
    cases hl : hmLookup r.entries p with
    | none => simp
    | some m => rw [hl] at h; simp at h
  · intro err herr
    cases hl : hmLookup r.entries p with
    | none => rw [hl] at herr; simp at herr; exact herr.symm
    | some m => rw [hl] at herr; simp at herr

/-- Witness for C2 at a concrete registry, path and position. -/
theorem c2_witness :
    StaticModuleResolver.new.resolve sampleEngine "geo" samplePos =
      Except.error (EvalAltResult.ErrorModuleNotFound "geo" samplePos) :=
  (c2_resolve_not_found StaticModuleResolver.new sampleEngine "geo" samplePos).1 rfl

/-- C4: with a raw parameter-name list present, `returnType` is the last
entry verbatim, or the unit token for an empty list; with no raw list it is
absent, so `returnType` is present exactly when the raw list is. -/
theorem c4_return_type (info : FuncInfo) :
    (FnMetadata.ofFuncInfo info).return_type =
      info.param_names.map (fun names => names.getLast?.getD "()") ∧
    ((FnMetadata.ofFuncInfo info).return_type.isSome = info.param_names.isSome) := by
  unfold FnMetadata.ofFuncInfo
  cases hn : info.param_names with
  | none => exact ⟨rfl, rfl⟩
  | some names =>
    cases hl : names.getLast? with
    | none => simp [hl]
    | some s => simp [hl]

/-- C5: the compiled-script path forces namespace Global and type Script,
gives every parameter the fixed placeholder type (the string `Dynamic`,
the rhai untyped value), the same placeholder as return type, and documents
only non-empty comment lists. -/
theorem c5_script_path (info : ScriptFnMetadata) :
    (FnMetadata.ofScriptFn info).ns = FnNamespace.Global ∧
    (FnMetadata.ofScriptFn info).typ = FnType.Script ∧
    ((FnMetadata.ofScriptFn info).params.all fun p => p.typ == some "Dynamic") = true ∧
    (FnMetadata.ofScriptFn info).return_type = some "Dynamic" ∧
    (FnMetadata.ofScriptFn info).doc_comments =
      (if info.comments.isEmpty then none else some info.comments) := by
  refine ⟨rfl, rfl, ?_, rfl, rfl⟩
  unfold FnMetadata.ofScriptFn
  simp [List.all_eq_true]

/-- C8: on the module function-table path, `docComments` is present exactly
for script-origin functions, then carrying the definition comment lines
verbatim (even when that list is empty); native functions get no field. -/
theorem c8_doc_comments (info : FuncInfo) :
    (FnMetadata.ofFuncInfo info).doc_comments =
      (if info.func.is_script then some info.func.comments else none) ∧
    (FnMetadata.ofFuncInfo info).doc_comments.isSome = info.func.is_script := by
  unfold FnMetadata.ofFuncInfo
  cases hs : info.func.is_script <;> simp [hs]

theorem splitn2Colon_spec (cs : List Char) :
    (splitn2Colon cs).1 = cs.takeWhile (fun c => c != ':') ∧
    (splitn2Colon cs).2 =
      (if cs.contains ':' then some ((cs.dropWhile (fun c => c != ':')).tail)
       else none) := by
  induction cs with
  | nil => simp [splitn2Colon]
  | cons c rest ih =>
    by_cases hc : c = ':'
    · subst hc
      simp [splitn2Colon, List.takeWhile, List.dropWhile]
    · have hb : (c != ':') = true := by simp [hc]
      have hcont : ((c :: rest).contains ':') = (rest.contains ':') := by
        simp [List.contains_cons]
        intro he
        exact absurd he.symm hc
      constructor
      · simp [splitn2Colon, hc, List.takeWhile, hb, ih.1]
      · simp only [splitn2Colon, hc, if_false, hcont]
        rw [ih.2]
        by_cases hr : rest.contains ':' = true
        · simp [hr, List.dropWhile, hb]
        · simp [hr] at ih ⊢
          simp [List.dropWhile, hb]

/-- C3 counterexample: an empty raw entry taken by the module
function-table path yields an empty parameter name, not the underscore
placeholder the claim requires. -/
theorem c3_counterexample :
    (FnMetadata.ofFuncInfo c3Info).params ≠
      [{ name := "_", typ := none }] ∧
    (FnMetadata.ofFuncInfo c3Info).params = [{ name := "", typ := none }] := by
  refine ⟨?_, rfl⟩
  decide

/-- C3 amended: each raw entry is split once on the first colon; the text
before the colon, trimmed, becomes the parameter name, with no placeholder
substitution when it is empty (the underscore fallback in the source is
attached to a split that always yields a first fragment, so it never
fires); the text after the colon, when present, trimmed, becomes the
optional type.  Raw `x:Int` gives name `x` type `Int`, raw `y` gives name
`y` and no type, raw `""` gives an empty name and no type. -/
theorem c3_param_parsing :
    (∀ s : String, fnParamOfRaw s = fnParamSpec s) ∧
    fnParamOfRaw "x:Int" = { name := "x", typ := some "Int" } ∧
    fnParamOfRaw "y" = { name := "y", typ := none } ∧
    fnParamOfRaw "" = { name := "", typ := none } := by
  refine ⟨?_, by decide, by decide, by decide⟩
  intro s
  unfold fnParamOfRaw fnParamSpec
  have h := splitn2Colon_spec s.toList
  by_cases hc : s.toList.contains ':' = true
  · simp only [hc, if_true] at h ⊢
    rw [h.1, h.2]
    simp
  · simp only [hc] at h ⊢
    rw [h.1, h.2]
    have hself : s.toList.takeWhile (fun c => c != ':') = s.toList := by
      apply List.takeWhile_eq_self_iff.mpr ?_
      intro c hcm
      simp only [bne_iff_ne, ne_eq]
      intro he
      subst he
      exact hc (by simpa using hcm)
    rw [hself]
    simp

theorem hmLookup_cons (x : String × Module) (l : List (String × Module)) (p : String) :
    hmLookup (x :: l) p = (if x.1 = p then some x.2 else hmLookup l p) := by
  unfold hmLookup
  by_cases h : x.1 = p
  · have hp : ((fun q : String × Module => q.1 == p) x) = true := by simp [h]
    have hstep : List.find? (fun q => q.1 == p) (x :: l) = some x :=
      List.find?_cons_of_pos l hp
    rw [hstep, if_pos h]
    rfl
  · have hp : ¬ (((fun q : String × Module => q.1 == p) x) = true) := by simp [h]
    have hstep : List.find? (fun q => q.1 == p) (x :: l) =
        List.find? (fun q => q.1 == p) l :=
      List.find?_cons_of_neg l hp
    rw [hstep, if_neg h]

theorem hmLookup_eq_none (l : List (String × Module)) (p : String) :
    hmLookup l p = none ↔ p ∉ l.map Prod.fst := by
  induction l with
  | nil => simp [hmLookup]
  | cons x rest ih =>
    rw [hmLookup_cons]
    by_cases h : x.1 = p
    · simp [h]
    · simp only [if_neg h, ih, List.map_cons, List.mem_cons]
      constructor
      · intro hn hor
        cases hor with
        | inl he => exact h he.symm
        | inr hm => exact hn hm
      · intro hn hm
        exact hn (Or.inr hm)

theorem mem_keys_insert (r : StaticModuleResolver) (k q : String) (m : Module) :
    q ∈ (r.insert k m).entries.map Prod.fst ↔
      q = k ∨ q ∈ r.entries.map Prod.fst := by
  unfold StaticModuleResolver.insert
  simp only [List.map_cons, List.mem_cons, List.mem_map, List.mem_filter,
    bne_iff_ne, ne_eq]
  by_cases hqk : q = k
  · simp [hqk]
  · constructor
    · rintro (he | ⟨x, ⟨hx, hne⟩, hq⟩)
      · exact Or.inl he
      · exact Or.inr ⟨x, hx, hq⟩
    · rintro (he | ⟨x, hx, hq⟩)
      · exact Or.inl he
      · refine Or.inr ⟨x, ⟨hx, ?_⟩, hq⟩
        intro hk
        exact hqk (hq ▸ hk ▸ rfl)

theorem mem_keys_foldl_insert (l : List (String × Module))
    (a : StaticModuleResolver) (p : String) :
    (p ∈ (l.foldl (fun acc q => acc.insert q.1 q.2) a).entries.map Prod.fst) ↔
      p ∈ a.entries.map Prod.fst ∨ p ∈ l.map Prod.fst := by
  induction l generalizing a with
  | nil => simp
  | cons x rest ih =>
    simp only [List.foldl_cons, List.map_cons, List.mem_cons]
    rw [ih, mem_keys_insert]
    tauto

theorem hmLookup_foldl_insert (l : List (String × Module))
    (a : StaticModuleResolver) (p : String)
    (hl : (l.map Prod.fst).Nodup) :
    hmLookup (l.foldl (fun acc q => acc.insert q.1 q.2) a).entries p =
      (match hmLookup l p with
       | some m => some m
       | none => hmLookup a.entries p) := by
  induction l generalizing a with
  | nil => simp [hmLookup]
  | cons x rest ih =>
    simp only [List.map_cons, List.nodup_cons] at hl
    simp only [List.foldl_cons]
    rw [ih _ hl.2, hmLookup_cons]
    by_cases hp : x.1 = p
    · have hnone : hmLookup rest p = none := by
        rw [hmLookup_eq_none]
        rw [hp] at hl
        exact hl.1
      rw [hnone, if_pos hp, hmLookup_insert, if_pos hp.symm]
    · rw [if_neg hp, hmLookup_insert, if_neg (fun he => hp he.symm)]

/-- C6: after `merge`, the path set is the union of the two original path
sets, the incoming side wins on every clash, and a path present in only
one side keeps its original module. -/
theorem c6_merge (a b : StaticModuleResolver)
    (hb : (b.entries.map Prod.fst).Nodup) (p : String) :
    (p ∈ (a.merge b).entries.map Prod.fst ↔
      p ∈ a.entries.map Prod.fst ∨ p ∈ b.entries.map Prod.fst) ∧
    (∀ m, hmLookup b.entries p = some m →
      hmLookup (a.merge b).entries p = some m) ∧
    (hmLookup b.entries p = none →
      hmLookup (a.merge b).entries p = hmLookup a.entries p) := by
  unfold StaticModuleResolver.merge
  cases he : b.is_empty with
  | true =>
    have hnil : b.entries = [] := by
      unfold StaticModuleResolver.is_empty at he
      exact List.isEmpty_iff.mp he
    simp [hnil, hmLookup]
  | false =>
    rw [if_pos (by rfl : (!false) = true)]
    refine ⟨mem_keys_foldl_insert b.entries a p, ?_, ?_⟩
    · intro m hm
      rw [hmLookup_foldl_insert b.entries a p hb, hm]
    · intro hm
      rw [hmLookup_foldl_insert b.entries a p hb, hm]

/-- Witness for C6 at concrete registries: the incoming value replaces the
clashing path and the untouched path keeps its module. -/
theorem c6_witness :
    hmLookup (regA.merge regB).entries "math" = some moduleM3 ∧
    hmLookup (regA.merge regB).entries "str" = some moduleM2 := by
  have h1 := (c6_merge regA regB (by decide) "math").2.1 moduleM3 rfl
  have h2 := (c6_merge regA regB (by decide) "str").2.2 rfl
  refine ⟨h1, ?_⟩
  rw [h2]
  rfl

theorem foldl_pushFn_spec (g : ModuleMetadata) (l : List FnMetadata) :
    l.foldl ModuleMetadata.pushFn g =
      ModuleMetadata.mk g.modules (g.functions ++ l) := by
  induction l generalizing g with
  | nil =>
    cases g
    simp [ModuleMetadata.modules, ModuleMetadata.functions]
  | cons f rest ih =>
    cases g with
    | mk ms fs =>
      simp only [List.foldl_cons]
      rw [ih]
      simp [ModuleMetadata.pushFn, ModuleMetadata.modules, ModuleMetadata.functions]

theorem foldl_insertModule_spec (g : ModuleMetadata) (l : List (String × Module)) :
    l.foldl (fun g p => g.insertModule p.1 (ModuleMetadata.ofModule p.2)) g =
      ModuleMetadata.mk (btCollect l g.modules) g.functions := by
  induction l generalizing g with
  | nil =>
    cases g
    simp [btCollect, ModuleMetadata.modules, ModuleMetadata.functions]
  | cons x rest ih =>
    obtain ⟨n, m⟩ := x
    cases g with
    | mk ms fs =>
      simp only [List.foldl_cons]
      rw [ih]
      simp [ModuleMetadata.insertModule, btCollect,
        ModuleMetadata.modules, ModuleMetadata.functions]

/-- C7: the root function list is host-package functions (only when
requested, in registration order), then the global namespace functions,
then the compiled-script functions; globally registered sub-modules are
built recursively into the module map, not the function list. -/
theorem c7_aggregation (e : Engine) (ast : Option AST) (inc : Bool) :
    (e.gen_fn_metadata ast inc).functions =
      ((if inc then
          e.packages.flatMap (fun m => m.functions.map FnMetadata.ofFuncInfo)
        else []) ++
        e.global_namespace.functions.map FnMetadata.ofFuncInfo ++
        (match ast with
         | some a => a.functions.map FnMetadata.ofScriptFn
         | none => [])) ∧
    (e.gen_fn_metadata ast inc).modules = btCollect e.global_sub_modules [] := by
  have hdef : ModuleMetadata.default = ModuleMetadata.mk [] [] := rfl
  cases inc <;> cases ast <;>
    simp [Engine.gen_fn_metadata, hdef, foldl_pushFn_spec, foldl_insertModule_spec,
      ModuleMetadata.modules, ModuleMetadata.functions]

/-- C10: on the module function-table path the parameter list has exactly
`min(numParams, raw length)` entries (no padding), and whenever the raw
list fits inside the declared arity its last entry is both parsed as the
final parameter and reused verbatim as the return type. -/
theorem c10_params_truncation (info : FuncInfo) (names : List String)
    (h : info.param_names = some names) :
    (FnMetadata.ofFuncInfo info).params.length = min info.params names.length ∧
    (∀ lastName, names.getLast? = some lastName → names.length ≤ info.params →
      (FnMetadata.ofFuncInfo info).params.getLast? = some (fnParamOfRaw lastName) ∧
      (FnMetadata.ofFuncInfo info).return_type = some lastName) := by
  unfold FnMetadata.ofFuncInfo
  simp only [h]
  constructor
  · simp
  · intro lastName hlast hle
    have htake : names.take info.params = names := List.take_of_length_le hle
    rw [htake]
    constructor
    · rw [List.getLast?_map, hlast]
      rfl
    · simp [hlast]

/-- Witness for C10 at a concrete descriptor with arity two and raw list
of length two. -/
theorem c10_witness :
    (FnMetadata.ofFuncInfo c10Info).params.length =
      min c10Info.params (["x:Int", "y"] : List String).length ∧
    (FnMetadata.ofFuncInfo c10Info).params.getLast? = some (fnParamOfRaw "y") ∧
    (FnMetadata.ofFuncInfo c10Info).return_type = some "y" := by
  have h := c10_params_truncation c10Info ["x:Int", "y"] rfl
  have h2 := h.2 "y" rfl (by decide)
  exact ⟨h.1, h2.1, h2.2⟩

theorem btInsert_mem {α : Type} (k : String) (v : α) (l : List (String × α))
    (x : String × α) (hx : x ∈ btInsert k v l) : x = (k, v) ∨ x ∈ l := by
  induction l with
  | nil =>
    simp only [btInsert, List.mem_singleton] at hx
    exact Or.inl hx
  | cons a rest ih =>
    obtain ⟨q, w⟩ := a
    unfold btInsert at hx
    split_ifs at hx with h1 h2
    · rcases List.mem_cons.mp hx with he | hr
      · exact Or.inl he
      · exact Or.inr hr
    · rcases List.mem_cons.mp hx with he | hr
      · exact Or.inl he
      · exact Or.inr (List.mem_cons_of_mem _ hr)
    · rcases List.mem_cons.mp hx with he | hr
      · exact Or.inr (he ▸ List.mem_cons_self _ _)
      · rcases ih hr with he2 | hr2
        · exact Or.inl he2
        · exact Or.inr (List.mem_cons_of_mem _ hr2)

theorem btInsert_keysSorted {α : Type} (k : String) (v : α)
    (l : List (String × α)) (h : keysSorted l) : keysSorted (btInsert k v l) := by
  induction l with
  | nil => simp [btInsert, keysSorted]
  | cons a rest ih =>
    obtain ⟨q, w⟩ := a
    unfold keysSorted at h ⊢
    simp only [List.map_cons, List.pairwise_cons] at h
    unfold btInsert
    split_ifs with h1 h2
    · simp only [List.map_cons, List.pairwise_cons]
      refine ⟨?_, ?_⟩
      · intro b hb
        rcases List.mem_cons.mp hb with rfl | hbr
        · exact h1
        · exact lt_trans h1 (h.1 b hbr)
      · exact h
    · subst h2
      simp only [List.map_cons, List.pairwise_cons]
      exact h
    · have hqk : q < k := by
        rcases lt_trichotomy k q with hlt | heq | hgt
        · exact absurd hlt h1
        · exact absurd heq h2
        · exact hgt
      simp only [List.map_cons, List.pairwise_cons]
      refine ⟨?_, ih h.2⟩
      intro b hb
      rcases List.mem_map.mp hb with ⟨x, hx, rfl⟩
      rcases btInsert_mem k v rest x hx with rfl | hxr
      · exact hqk
      · exact h.1 x.1 (List.mem_map_of_mem Prod.fst hxr)

theorem btCollect_keysSorted (l : List (String × Module))
    (acc : List (String × ModuleMetadata)) (h : keysSorted acc) :
    keysSorted (btCollect l acc) := by
  induction l generalizing acc with
  | nil => simpa [btCollect] using h
  | cons x rest ih =>
    obtain ⟨n, m⟩ := x
    simp only [btCollect]
    exact ih _ (btInsert_keysSorted n (ModuleMetadata.ofModule m) acc h)

theorem btCollect_mem (l : List (String × Module))
    (acc : List (String × ModuleMetadata)) (q : String × ModuleMetadata)
    (hq : q ∈ btCollect l acc) :
    (∃ s ∈ l, q = (s.1, ModuleMetadata.ofModule s.2)) ∨ q ∈ acc := by
  induction l generalizing acc with
  | nil =>
    right
    simpa [btCollect] using hq
  | cons x rest ih =>
    obtain ⟨n, m⟩ := x
    simp only [btCollect] at hq
    rcases ih _ hq with ⟨s, hs, he⟩ | hacc
    · exact Or.inl ⟨s, List.mem_cons_of_mem _ hs, he⟩
    · rcases btInsert_mem _ _ _ _ hacc with he | hacc2
      · exact Or.inl ⟨(n, m), List.mem_cons_self _ _, by simpa using he⟩
      · exact Or.inr hacc2

theorem serializeModuleList_map_fst (ms : List (String × ModuleMetadata)) :
    (serializeModuleList ms).map Prod.fst = ms.map Prod.fst := by
  induction ms with
  | nil => simp [serializeModuleList]
  | cons x rest ih =>
    obtain ⟨k, v⟩ := x
    simp only [serializeModuleList, List.map_cons, ih]

theorem module_ind_aux (P : Module → Prop)
    (h : ∀ subs fns, (∀ q ∈ subs, P q.2) → P (Module.mk subs fns)) :
    ∀ (n : Nat) (m : Module), sizeOf m ≤ n → P m := by
  intro n
  induction n with
  | zero =>
    intro m hm
    cases m with
    | mk subs fns =>
      rw [Module.mk.sizeOf_spec] at hm
      omega
  | succ n ihn =>
    intro m hm
    cases m with
    | mk subs fns =>
      apply h
      intro q hq
      apply ihn
      have h1 := List.sizeOf_lt_of_mem hq
      have h2 : sizeOf q = 1 + sizeOf q.1 + sizeOf q.2 := by
        obtain ⟨x, y⟩ := q
        rw [Prod.mk.sizeOf_spec]
      rw [Module.mk.sizeOf_spec] at hm
      omega

theorem module_ind (P : Module → Prop)
    (h : ∀ subs fns, (∀ q ∈ subs, P q.2) → P (Module.mk subs fns))
    (m : Module) : P m :=
  module_ind_aux P h (sizeOf m) m (le_refl _)

theorem goodMM_ofModule (m : Module) : GoodMM (ModuleMetadata.ofModule m) := by
  refine module_ind (fun m => GoodMM (ModuleMetadata.ofModule m)) ?_ m
  intro subs fns ih
  rw [show ModuleMetadata.ofModule (Module.mk subs fns) =
      ModuleMetadata.mk (btCollect subs []) (fns.map FnMetadata.ofFuncInfo) from by
    rw [ModuleMetadata.ofModule]]
  apply GoodMM.mk
  · exact btCollect_keysSorted subs [] (by simp [keysSorted])
  · intro q hq
    rcases btCollect_mem subs [] q hq with ⟨s, hs, rfl⟩ | habs
    · exact ih s hs
    · simp at habs

theorem gen_fn_metadata_modules (e : Engine) (ast : Option AST) (inc : Bool) :
    (e.gen_fn_metadata ast inc).modules = btCollect e.global_sub_modules [] := by
  have hdef : ModuleMetadata.default = ModuleMetadata.mk [] [] := rfl
  cases inc <;> cases ast <;>
    simp [Engine.gen_fn_metadata, hdef, foldl_pushFn_spec, foldl_insertModule_spec,
      ModuleMetadata.modules, ModuleMetadata.functions]

theorem goodMM_gen (e : Engine) (ast : Option AST) (inc : Bool) :
    GoodMM (e.gen_fn_metadata ast inc) := by
  have hmod := gen_fn_metadata_modules e ast inc
  cases hg : e.gen_fn_metadata ast inc with
  | mk ms fs =>
    rw [hg] at hmod
    simp only [ModuleMetadata.modules] at hmod
    subst hmod
    apply GoodMM.mk
    · exact btCollect_keysSorted _ _ (by simp [keysSorted])
    · intro q hq
      rcases btCollect_mem _ _ q hq with ⟨s, hs, rfl⟩ | habs
      · exact goodMM_ofModule s.2
      · simp at habs

theorem subnode_goodMM (nd md : ModuleMetadata) (h : Subnode nd md) :
    GoodMM md → GoodMM nd := by
  induction h with
  | refl md => exact id
  | child q md nd hq hsub ih =>
    intro hg
    apply ih
    cases hg with
    | mk ms fs hs hrec =>
      exact hrec q (by simpa [ModuleMetadata.modules] using hq)

/-- C9: at every module level of the serialized export document, the
`modules` and `functions` fields are emitted exactly when non-empty (never
as empty collections), the emitted `modules` object has its keys in sorted
order, and a function object emits `params` exactly when non-empty. -/
theorem c9_serialized_shape (e : Engine) (ast : Option AST) (inc : Bool)
    (nd : ModuleMetadata) (hnd : Subnode nd (e.gen_fn_metadata ast inc)) :
    (("modules" ∈ (objFields nd.toJson).map Prod.fst) ↔ nd.modules ≠ []) ∧
    (("functions" ∈ (objFields nd.toJson).map Prod.fst) ↔ nd.functions ≠ []) ∧
    (∀ v, ("modules", v) ∈ objFields nd.toJson →
      ∃ gs, v = Json.obj gs ∧ gs ≠ [] ∧ keysSorted gs) ∧
    (∀ f : FnMetadata,
      ("params" ∈ (objFields f.toJson).map Prod.fst) ↔ f.params ≠ []) := by
  have hgood : GoodMM nd := subnode_goodMM _ _ hnd (goodMM_gen e ast inc)
  cases nd with
  | mk ms fs =>
    have hsorted : keysSorted ms := by
      cases hgood with
      | mk ms fs hs hrec => exact hs
    refine ⟨?_, ?_, ?_, ?_⟩
    · simp only [ModuleMetadata.toJson, ModuleMetadata.modules, objFields]
      cases ms <;> cases fs <;> simp [serializeModuleList]
    · simp only [ModuleMetadata.toJson, ModuleMetadata.functions, objFields]
      cases ms <;> cases fs <;> simp [serializeModuleList]
    · intro v hv
      simp only [ModuleMetadata.toJson, objFields] at hv
      cases hms : ms with
      | nil =>
        subst hms
        cases fs <;> simp at hv
      | cons m0 ms' =>
        subst hms
        have hv2 : v = Json.obj (serializeModuleList (m0 :: ms')) := by
          cases fs <;> simp at hv <;> exact hv
        refine ⟨serializeModuleList (m0 :: ms'), hv2, by simp [serializeModuleList], ?_⟩
        unfold keysSorted
        rw [serializeModuleList_map_fst]
        exact hsorted
    · intro f
      obtain ⟨fns, fac, fnm, fty, fnp, fps, frt, fdc⟩ := f
      simp only [FnMetadata.toJson, objFields]
      cases fps <;> cases frt <;> cases fdc <;> simp

/-- Witness for C9 at the root node of a concrete aggregation. -/
theorem c9_witness :
    (("modules" ∈
        (objFields (sampleEngine.gen_fn_metadata none false).toJson).map Prod.fst) ↔
      (sampleEngine.gen_fn_metadata none false).modules ≠ []) ∧
    (("functions" ∈
        (objFields (sampleEngine.gen_fn_metadata none false).toJson).map Prod.fst) ↔
      (sampleEngine.gen_fn_metadata none false).functions ≠ []) := by
  have h := c9_serialized_shape sampleEngine none false _
    (Subnode.refl (sampleEngine.gen_fn_metadata none false))
  exact ⟨h.1, h.2.1⟩

end Rhai
